import Mathlib

/-!
Verification of the chunk-splitting optimizer (`lib/optimize/SplitChunksPlugin.js`).
The JavaScript source is shallowly embedded: JS objects keyed by strings become
association lists, JS `Set`s become insertion-ordered lists with deduplicating
insertion, JS numbers used as sizes/priorities become `Int`, and the possibly
infinite request budgets become an explicit two-constructor type.
-/

namespace SplitChunks

/-- Per-type size map: models a plain JS object mapping source types to numbers
(`Record<string, number>`). Maps produced by the code have unique keys. -/
abbrev SizeMap := List (String × Int)

/-- Models JS property read `m[k]`: the value bound to the first occurrence of
the key, or `none` (`undefined`) when absent. -/
def mapGet {β : Type} : List (String × β) → String → Option β
  | [], _ => none
  | p :: ps, k => if p.1 = k then some p.2 else mapGet ps k

/-- Models `m[k] = v` on a JS object (or `Map.set`): overwrites the binding in
place when the key is present, otherwise appends it. -/
def mapSet {β : Type} (m : List (String × β)) (k : String) (v : β) : List (String × β) :=
  if (mapGet m k).isSome then m.map (fun p => if p.1 = k then (k, v) else p)
  else m ++ [(k, v)]

/-- Models `Object.assign(target, src)`: copies every binding of `src` onto
`target`, in key order. -/
def assignMap (target src : SizeMap) : SizeMap :=
  src.foldl (fun acc p => mapSet acc p.1 p.2) target

/-- JS values accepted as a size specification: a number, an object, or anything
else (null, strings, booleans, ...); `Option` wraps the value with `none`
standing for `undefined`. -/
inductive SizeValue where
  | num (n : Int)
  | obj (m : SizeMap)
  | other
deriving DecidableEq

/-- Function `normalizeSizes` (SplitChunksPlugin.js lines 110-120): a number becomes the
single-key map on `javascript`; an object is copied onto a fresh prototype-free
object; everything else becomes the empty map. -/
def normalizeSizes : Option SizeValue → SizeMap
  | some (.num n) => [("javascript", n)]
  | some (.obj m) => assignMap [] m
  | _ => []

/-- Function `mergeSizes` (lines 122-127): an `undefined` value falls back to the
normalized default; otherwise the normalized default is assigned first and the
normalized value assigned on top of it. -/
def mergeSizes (value defaultValue : Option SizeValue) : SizeMap :=
  match value with
  | none => normalizeSizes defaultValue
  | some v =>
    let sizes := normalizeSizes (some v)
    let defaultSizes := normalizeSizes defaultValue
    assignMap (assignMap [] defaultSizes) sizes

/-- Function `checkMinSize` (lines 148-155): every key of `minSize` must be present in
`sizes` with a value not below the threshold; a missing key fails. -/
def checkMinSize (sizes minSize : SizeMap) : Bool :=
  (minSize.map Prod.fst).all (fun key =>
    match mapGet sizes key with
    | none => false
    | some size =>
      match mapGet minSize key with
      | none => true
      | some m => decide (m ≤ size))

/-- Function `totalSize` (lines 157-163): sum of the values of all keys. -/
def totalSize (sizes : SizeMap) : Int :=
  sizes.foldl (fun acc p => acc + p.2) 0

section MapLemmas

variable {β : Type}

theorem mapGet_some_mem_keys {m : List (String × β)} {k : String} {v : β}
    (h : mapGet m k = some v) : k ∈ m.map Prod.fst := by
  induction m with
  | nil => simp [mapGet] at h
  | cons p ps ih =>
    by_cases hp : p.1 = k
    · simp [hp]
    · simp only [mapGet, hp, if_false] at h
      simp [ih h]

theorem mem_keys_mapGet_isSome {m : List (String × β)} {k : String}
    (h : k ∈ m.map Prod.fst) : ∃ v, mapGet m k = some v := by
  induction m with
  | nil => simp at h
  | cons p ps ih =>
    by_cases hp : p.1 = k
    · exact ⟨p.2, by simp [mapGet, hp]⟩
    · simp only [List.map_cons, List.mem_cons] at h
      rcases h with h | h
      · exact absurd h.symm hp
      · obtain ⟨v, hv⟩ := ih h
        exact ⟨v, by simp [mapGet, hp, hv]⟩

end MapLemmas

/-- C6: `checkMinSize(s, t)` is true iff every key present in `t` is present in
`s` with a value at least the threshold; an empty threshold is satisfied by
every size map, and a key missing from `s` makes the check fail. -/
theorem c6_checkMinSize_spec :
    (∀ s t : SizeMap, checkMinSize s t = true ↔
      ∀ k v, mapGet t k = some v → ∃ w, mapGet s k = some w ∧ v ≤ w)
    ∧ (∀ s : SizeMap, checkMinSize s [] = true)
    ∧ (∀ (s t : SizeMap) (k : String) (v : Int),
        mapGet t k = some v → mapGet s k = none → checkMinSize s t = false) := by
  have main : ∀ s t : SizeMap, checkMinSize s t = true ↔
      ∀ k v, mapGet t k = some v → ∃ w, mapGet s k = some w ∧ v ≤ w := by
    intro s t
    unfold checkMinSize
    rw [List.all_eq_true]
    constructor
    · intro h k v hk
      have hmem := mapGet_some_mem_keys hk
      have hk2 := h k hmem
      cases hs : mapGet s k with
      | none => rw [hs] at hk2; simp at hk2
      | some w =>
        rw [hs, hk] at hk2
        simp only [decide_eq_true_eq] at hk2
        exact ⟨w, rfl, hk2⟩
    · intro h k hk
      obtain ⟨v, hv⟩ := mem_keys_mapGet_isSome hk
      obtain ⟨w, hw, hle⟩ := h k v hv
      rw [hw, hv]
      simpa using hle
  refine ⟨main, ?_, ?_⟩
  · intro s
    simp [checkMinSize]
  · intro s t k v hk hs
    rcases h : checkMinSize s t with _ | _
    · rfl
    · obtain ⟨w, hw, _⟩ := (main s t).mp h k v hk
      rw [hs] at hw
      exact absurd hw (by simp)

section MoreMapLemmas

variable {β : Type}

theorem mapGet_append (a b : List (String × β)) (k : String) :
    mapGet (a ++ b) k = match mapGet a k with
      | some v => some v
      | none => mapGet b k := by
  induction a with
  | nil => simp [mapGet]
  | cons p ps ih =>
    by_cases hp : p.1 = k
    · simp [mapGet, hp]
    · simp [mapGet, hp, ih]

theorem mapSet_not_mem (m : List (String × β)) (k : String) (v : β)
    (h : mapGet m k = none) : mapSet m k v = m ++ [(k, v)] := by
  simp [mapSet, h]

theorem mapGet_mapSet_self (m : List (String × β)) (k : String) (v : β) :
    mapGet (mapSet m k v) k = some v := by
  unfold mapSet
  split
  case isTrue h =>
    induction m with
    | nil => simp [mapGet] at h
    | cons p ps ih =>
      by_cases hp : p.1 = k
      · simp [mapGet, hp]
      · simp only [mapGet, hp, if_false] at h
        simpa [mapGet, hp] using ih h
  case isFalse h =>
    rw [mapGet_append]
    have hnone : mapGet m k = none := by
      cases hm : mapGet m k with
      | none => rfl
      | some w => exact absurd (by simp [hm]) h
    simp [hnone, mapGet]

theorem mapGet_mapReplace (m : List (String × β)) (k k' : String) (v : β)
    (h : k' ≠ k) :
    mapGet (m.map (fun p => if p.1 = k then (k, v) else p)) k' = mapGet m k' := by
  induction m with
  | nil => simp [mapGet]
  | cons p ps ih =>
    by_cases hp : p.1 = k
    · have hk : ¬ (k = k') := fun he => h he.symm
      simp [mapGet, hp, hk, ih]
    · simp [mapGet, hp, ih]

theorem mapGet_mapSet_ne (m : List (String × β)) (k k' : String) (v : β)
    (h : k' ≠ k) : mapGet (mapSet m k v) k' = mapGet m k' := by
  unfold mapSet
  split
  case isTrue hs => exact mapGet_mapReplace m k k' v h
  case isFalse hs =>
    rw [mapGet_append]
    cases hm : mapGet m k' with
    | none =>
      have hk : ¬ (k = k') := fun he => h he.symm
      simp [mapGet, hk]
    | some w => simp

end MoreMapLemmas

/-- Witness for C6 at concrete size maps: an empty threshold always passes and
a missing key fails. -/
theorem c6_checkMinSize_spec_witness :
    checkMinSize [("javascript", 500)] [] = true
    ∧ checkMinSize [] [("javascript", 300)] = false :=
  ⟨c6_checkMinSize_spec.2.1 [("javascript", 500)],
   c6_checkMinSize_spec.2.2 [] [("javascript", 300)] "javascript" 300 rfl rfl⟩

/-- A module, identified by its identifier string and carrying its per-type
sizes; `module.getSourceTypes()` iterates the keys and `module.size(t)` reads
one entry. -/
structure Module where
  id : String
  sizes : SizeMap
deriving DecidableEq

/-- Models `module.getSourceTypes()`. -/
def Module.getSourceTypes (m : Module) : List String := m.sizes.map Prod.fst

/-- Models `module.size(type)`. -/
def Module.size (m : Module) (t : String) : Int := (mapGet m.sizes t).getD 0

/-- A chunk, as read by the optimizer: optional name, the modules the chunk
graph assigns to it, its entry-module count, the initial/async classification
flags, the sizes of the chunk groups it belongs to (feeding `getRequests`), and
an optional filename template. -/
structure Chunk where
  name : Option String
  modules : List Module
  entryCount : Nat
  isOnlyInitial : Bool
  canBeInitial : Bool
  groupSizes : List Nat
  filenameTemplate : Option String
deriving DecidableEq

/-- Function `getRequests` (lines 52-58): the maximum chunk count over the chunk groups
containing the chunk, starting from 0. -/
def getRequests (c : Chunk) : Nat := c.groupSizes.foldl max 0

/-- Function `isOverlap` (lines 66-71): true if at least one item of `a` is in `b`. -/
def isOverlap {α : Type} [DecidableEq α] (a b : List α) : Bool :=
  a.any (fun x => decide (x ∈ b))

/-- A JS number used as a request budget: finite or `Infinity`. -/
inductive JNum where
  | fin (n : Int)
  | inf
deriving DecidableEq

/-- Models `Number.isFinite`. -/
def JNum.isFinite : JNum → Bool
  | .fin _ => true
  | .inf => false

/-- Models `Math.min` on request budgets. -/
def JNum.jmin : JNum → JNum → JNum
  | .fin a, .fin b => .fin (min a b)
  | .fin a, .inf => .fin a
  | .inf, b => b

/-- Models `!isFinite(maxRequests) || getRequests(chunk) < maxRequests` (lines 768-770). -/
def requestsUnder (n : Nat) (j : JNum) : Bool :=
  match j with
  | .inf => true
  | .fin k => decide ((n : Int) < k)

/-- The name-generating function of a cache group:
`getName(module, chunks, key)`; `none` is an `undefined` result. -/
abbrev GetNameFn := Module → List Chunk → String → Option String

/-- A concrete cache group as built per matching source (lines 593-649),
restricted to the fields this development reads. -/
structure CacheGroup where
  key : String
  priority : Int
  minSize : SizeMap
  minSizeForMaxSize : SizeMap
  maxSize : SizeMap
  minChunks : Nat
  maxAsyncRequests : JNum
  maxInitialRequests : JNum
  getName : GetNameFn
  filename : Option String
  idHint : String
  reuseExistingChunk : Bool

/-- A cache-group source, as produced by `normalizeCacheGroups` or returned by
a user-supplied cache-groups function; `none` models an `undefined` field. -/
structure CacheGroupSource where
  key : String
  priority : Option Int
  minSize : Option SizeValue
  maxSize : Option SizeValue
  minChunks : Option Nat
  maxAsyncRequests : Option JNum
  maxInitialRequests : Option JNum
  enforce : Bool
  getName : Option GetNameFn
  filename : Option String
  idHint : Option String
  reuseExistingChunk : Bool

/-- The normalized global options (just the fields the cache-group
construction reads). -/
structure GlobalOptions where
  minSize : SizeMap
  maxSize : SizeMap
  minChunks : Nat
  maxAsyncRequests : JNum
  maxInitialRequests : JNum
  getName : GetNameFn
  filename : Option String

/-- The per-source cache-group construction (lines 593-649): `enforce: true`
replaces the global size defaults with a fresh empty object and the
chunk-count/request defaults with `1` / `Infinity`. -/
def buildCacheGroup (opts : GlobalOptions) (s : CacheGroupSource) : CacheGroup where
  key := s.key
  priority := s.priority.getD 0
  minSize := mergeSizes s.minSize (some (.obj (if s.enforce then [] else opts.minSize)))
  minSizeForMaxSize := mergeSizes s.minSize (some (.obj opts.minSize))
  maxSize := mergeSizes s.maxSize (some (.obj (if s.enforce then [] else opts.maxSize)))
  minChunks :=
    match s.minChunks with
    | some v => v
    | none => if s.enforce then 1 else opts.minChunks
  maxAsyncRequests :=
    match s.maxAsyncRequests with
    | some v => v
    | none => if s.enforce then .inf else opts.maxAsyncRequests
  maxInitialRequests :=
    match s.maxInitialRequests with
    | some v => v
    | none => if s.enforce then .inf else opts.maxInitialRequests
  getName := s.getName.getD opts.getName
  filename :=
    match s.filename with
    | some f => some f
    | none => opts.filename
  idHint := s.idHint.getD s.key
  reuseExistingChunk := s.reuseExistingChunk

/-- C2: an `enforce: true` source has its minSize and maxSize merged against an
empty default map instead of the global defaults, minChunks defaults to 1 and
both request budgets default to Infinity when unspecified; none of these fields
depends on the global options. -/
theorem c2_enforce_bypass (opts : GlobalOptions) (s : CacheGroupSource)
    (h : s.enforce = true) :
    (buildCacheGroup opts s).minSize = mergeSizes s.minSize (some (.obj []))
    ∧ (buildCacheGroup opts s).maxSize = mergeSizes s.maxSize (some (.obj []))
    ∧ (s.minChunks = none → (buildCacheGroup opts s).minChunks = 1)
    ∧ (s.maxAsyncRequests = none → (buildCacheGroup opts s).maxAsyncRequests = .inf)
    ∧ (s.maxInitialRequests = none → (buildCacheGroup opts s).maxInitialRequests = .inf)
    ∧ (∀ opts' : GlobalOptions,
        (buildCacheGroup opts' s).minSize = (buildCacheGroup opts s).minSize
        ∧ (buildCacheGroup opts' s).maxSize = (buildCacheGroup opts s).maxSize
        ∧ (buildCacheGroup opts' s).minChunks = (buildCacheGroup opts s).minChunks
        ∧ (buildCacheGroup opts' s).maxAsyncRequests = (buildCacheGroup opts s).maxAsyncRequests
        ∧ (buildCacheGroup opts' s).maxInitialRequests = (buildCacheGroup opts s).maxInitialRequests) := by
  refine ⟨by simp [buildCacheGroup, h], by simp [buildCacheGroup, h], ?_, ?_, ?_, ?_⟩
  · intro h'; simp [buildCacheGroup, h, h']
  · intro h'; simp [buildCacheGroup, h, h']
  · intro h'; simp [buildCacheGroup, h, h']
  · intro opts'
    refine ⟨by simp [buildCacheGroup, h], by simp [buildCacheGroup, h], ?_, ?_, ?_⟩ <;>
      simp only [buildCacheGroup, h, if_true]

/-- A sample name function used by concrete witnesses. -/
def constNoName : GetNameFn := fun _ _ _ => none

/-- Concrete global options for witnesses. -/
def optsW : GlobalOptions where
  minSize := [("javascript", 30000)]
  maxSize := []
  minChunks := 1
  maxAsyncRequests := .fin 5
  maxInitialRequests := .fin 3
  getName := constNoName
  filename := none

/-- Concrete enforced cache-group source for the C2 witness. -/
def srcW : CacheGroupSource where
  key := "vendors"
  priority := some (-10)
  minSize := none
  maxSize := none
  minChunks := none
  maxAsyncRequests := none
  maxInitialRequests := none
  enforce := true
  getName := none
  filename := none
  idHint := none
  reuseExistingChunk := false

/-- Witness for C2 at a concrete enforced source. -/
theorem c2_enforce_bypass_witness :
    (buildCacheGroup optsW srcW).minSize = mergeSizes srcW.minSize (some (.obj []))
    ∧ (buildCacheGroup optsW srcW).minChunks = 1
    ∧ (buildCacheGroup optsW srcW).maxAsyncRequests = .inf
    ∧ (buildCacheGroup optsW srcW).maxInitialRequests = .inf :=
  ⟨(c2_enforce_bypass optsW srcW rfl).1,
   (c2_enforce_bypass optsW srcW rfl).2.2.1 rfl,
   (c2_enforce_bypass optsW srcW rfl).2.2.2.1 rfl,
   (c2_enforce_bypass optsW srcW rfl).2.2.2.2.1 rfl⟩

/-- A pending split candidate (`ChunksInfoItem`, lines 30-40). JS `Set`s are
modelled as insertion-ordered duplicate-free lists. -/
structure ChunksInfoItem where
  modules : List Module
  cacheGroup : CacheGroup
  name : Option String
  validateSize : Bool
  sizes : SizeMap
  chunks : List Chunk
  chunksKeys : List String

/-- Models `Set.add`: appends unless already present. -/
def addUnique {α : Type} [DecidableEq α] (l : List α) (x : α) : List α :=
  if x ∈ l then l else l ++ [x]

/-- Size accumulation on module insertion (lines 556-560):
`info.sizes[type] = (info.sizes[type] || 0) + module.size(type)`. -/
def addModuleSizes (sizes : SizeMap) (m : Module) : SizeMap :=
  m.getSourceTypes.foldl (fun acc t => mapSet acc t ((mapGet acc t).getD 0 + m.size t)) sizes

/-- The pass state mutated by `addModuleToChunksInfoMap`: the pending candidate
map, the set of names already validated, the name-collision diagnostics pushed
so far (records of `compilation.errors.push`), and a read-only view of the
named chunks of the compilation. -/
structure SplitState where
  chunksInfoMap : List (String × ChunksInfoItem)
  alreadyValidatedNames : List (Option String)
  errors : List (String × String)
  namedChunks : List String

/-- Name validation (lines 507-527): each distinct computed name is validated
once; a name colliding with an existing named chunk pushes one
`(cacheGroupKey, name)` diagnostic. The pass is not aborted. -/
def validateName (cgKey : String) (name : Option String) (st : SplitState) : SplitState :=
  if name ∈ st.alreadyValidatedNames then st
  else
    let st1 := { st with alreadyValidatedNames := st.alreadyValidatedNames ++ [name] }
    match name with
    | some n =>
      if n ∈ st.namedChunks then { st1 with errors := st1.errors ++ [(cgKey, n)] } else st1
    | none => st1

/-- The candidate-map key (lines 528-534): the name when present, else the
selected-chunks key. -/
def mkCandidateKey (cgKey : String) (name : Option String) (selectedChunksKey : String) : String :=
  cgKey ++
    (match name with
     | some n => " name:" ++ n
     | none => " chunks:" ++ selectedChunksKey)

/-- The fresh candidate created on first insertion (lines 537-554); size
tracking is enabled only when the minSize of the owning cache group has keys. -/
def freshInfo (cacheGroup : CacheGroup) (name : Option String) : ChunksInfoItem where
  modules := []
  cacheGroup := cacheGroup
  name := name
  validateSize := decide (0 < cacheGroup.minSize.length)
  sizes := []
  chunks := []
  chunksKeys := []

/-- The mutation of a candidate on module insertion (lines 555-566). -/
def updateInfo (info : ChunksInfoItem) (selectedChunks : List Chunk)
    (selectedChunksKey : String) (module : Module) : ChunksInfoItem :=
  let info := { info with modules := addUnique info.modules module }
  let info :=
    if info.validateSize then { info with sizes := addModuleSizes info.sizes module } else info
  if selectedChunksKey ∈ info.chunksKeys then info
  else
    { info with
      chunksKeys := info.chunksKeys ++ [selectedChunksKey]
      chunks := selectedChunks.foldl addUnique info.chunks }

/-- Function `addModuleToChunksInfoMap` (lines 492-567). -/
def addModuleToChunksInfoMap (cacheGroup : CacheGroup) (selectedChunks : List Chunk)
    (selectedChunksKey : String) (module : Module) (st : SplitState) : SplitState :=
  if selectedChunks.length < cacheGroup.minChunks then st
  else
    let name := cacheGroup.getName module selectedChunks cacheGroup.key
    let st := validateName cacheGroup.key name st
    let key := mkCandidateKey cacheGroup.key name selectedChunksKey
    let info := (mapGet st.chunksInfoMap key).getD (freshInfo cacheGroup name)
    { st with
      chunksInfoMap :=
        mapSet st.chunksInfoMap key (updateInfo info selectedChunks selectedChunksKey module) }

theorem validateName_chunksInfoMap (cgKey : String) (name : Option String) (st : SplitState) :
    (validateName cgKey name st).chunksInfoMap = st.chunksInfoMap := by
  unfold validateName
  split
  · rfl
  · cases name with
    | some n =>
      simp only []
      split <;> rfl
    | none => rfl

theorem updateInfo_validateSize (info : ChunksInfoItem) (sel : List Chunk)
    (sk : String) (m : Module) :
    (updateInfo info sel sk m).validateSize = info.validateSize := by
  by_cases hv : info.validateSize = true <;> by_cases hk : sk ∈ info.chunksKeys <;>
    simp [updateInfo, hv, hk]

theorem updateInfo_sizes_of_not_validate (info : ChunksInfoItem) (sel : List Chunk)
    (sk : String) (m : Module) (h : info.validateSize = false) :
    (updateInfo info sel sk m).sizes = info.sizes := by
  by_cases hk : sk ∈ info.chunksKeys <;> simp [updateInfo, h, hk]

theorem assignMap_disjoint :
    ∀ (m acc : SizeMap), (m.map Prod.fst).Nodup →
      (∀ k, k ∈ m.map Prod.fst → mapGet acc k = none) →
      assignMap acc m = acc ++ m := by
  intro m
  induction m with
  | nil => intro acc _ _; simp [assignMap]
  | cons p ps ih =>
    intro acc hnd hdis
    simp only [List.map_cons, List.nodup_cons] at hnd
    have h1 : mapGet acc p.1 = none := hdis p.1 (by simp)
    have step : assignMap acc (p :: ps) = assignMap (acc ++ [(p.1, p.2)]) ps := by
      simp only [assignMap, List.foldl_cons, mapSet_not_mem acc p.1 p.2 h1]
    rw [step, ih (acc ++ [(p.1, p.2)]) hnd.2]
    · simp
    · intro k hk
      rw [mapGet_append]
      have hno : mapGet acc k = none := hdis k (by simp [hk])
      have hne : ¬ (p.1 = k) := fun he => hnd.1 (he ▸ hk)
      simp [hno, mapGet, hne]

/-- C10: `normalizeSizes` maps a number to the single-key `javascript` map, an
object to a copy of itself, and every other input (undefined, null, strings,
booleans) to the empty map; a cache group whose minSize is the empty map never
enables size tracking on a candidate it creates. -/
theorem c10_normalizeSizes_spec :
    (∀ n : Int, normalizeSizes (some (.num n)) = [("javascript", n)])
    ∧ (∀ m : SizeMap, (m.map Prod.fst).Nodup → normalizeSizes (some (.obj m)) = m)
    ∧ normalizeSizes none = []
    ∧ normalizeSizes (some .other) = []
    ∧ (∀ (cg : CacheGroup) (sel : List Chunk) (sk : String) (mo : Module) (st : SplitState),
        cg.minSize = [] →
        ∀ k i, mapGet (addModuleToChunksInfoMap cg sel sk mo st).chunksInfoMap k = some i →
          mapGet st.chunksInfoMap k = none →
          i.validateSize = false ∧ i.sizes = []) := by
  refine ⟨fun n => rfl, ?_, rfl, rfl, ?_⟩
  · intro m hnd
    have := assignMap_disjoint m [] hnd (fun k _ => rfl)
    simpa [normalizeSizes] using this
  · intro cg sel sk mo st hmin k i hres hnone
    unfold addModuleToChunksInfoMap at hres
    split at hres
    · rw [hnone] at hres; exact absurd hres (by simp)
    · simp only [validateName_chunksInfoMap] at hres
      by_cases hk : k = mkCandidateKey cg.key (cg.getName mo sel cg.key) sk
      · subst hk
        rw [mapGet_mapSet_self] at hres
        have hi := hres.symm
        rw [hnone] at hi
        simp only [Option.some.injEq] at hres
        have hfresh : i = updateInfo (freshInfo cg (cg.getName mo sel cg.key)) sel sk mo := by
          rw [← hres, hnone]; rfl
        have hval : i.validateSize = false := by
          rw [hfresh, updateInfo_validateSize]
          simp [freshInfo, hmin]
        refine ⟨hval, ?_⟩
        rw [hfresh, updateInfo_sizes_of_not_validate]
        · rfl
        · simp [freshInfo, hmin]
      · rw [mapGet_mapSet_ne _ _ _ _ hk, hnone] at hres
        exact absurd hres (by simp)

/-- Concrete cache group with empty minSize for the C10 witness. -/
def cgEmptyMin : CacheGroup where
  key := "default"
  priority := 0
  minSize := []
  minSizeForMaxSize := []
  maxSize := []
  minChunks := 1
  maxAsyncRequests := .inf
  maxInitialRequests := .inf
  getName := constNoName
  filename := none
  idHint := "default"
  reuseExistingChunk := false

/-- Concrete chunk used by witnesses. -/
def chunkW : Chunk where
  name := some "main"
  modules := []
  entryCount := 1
  isOnlyInitial := true
  canBeInitial := true
  groupSizes := [1]
  filenameTemplate := none

/-- Concrete module used by witnesses. -/
def moduleW : Module where
  id := "./src/a.js"
  sizes := [("javascript", 120)]

/-- The empty initial pass state. -/
def stEmpty : SplitState where
  chunksInfoMap := []
  alreadyValidatedNames := []
  errors := []
  namedChunks := []

/-- Witness for C10: inserting a module for a cache group with empty minSize
creates a candidate without size tracking. -/
theorem c10_normalizeSizes_spec_witness :
    normalizeSizes (some (.obj [("javascript", 7)])) = [("javascript", 7)]
    ∧ ((mapGet (addModuleToChunksInfoMap cgEmptyMin [chunkW] "1" moduleW stEmpty).chunksInfoMap
          "default chunks:1").getD (freshInfo cgEmptyMin none)).validateSize = false := by
  constructor
  · exact c10_normalizeSizes_spec.2.1 [("javascript", 7)] (by simp)
  · have h := c10_normalizeSizes_spec.2.2.2.2 cgEmptyMin [chunkW] "1" moduleW stEmpty rfl
      "default chunks:1"
      (updateInfo (freshInfo cgEmptyMin none) [chunkW] "1" moduleW)
      (by rfl) (by rfl)
    exact h.1

/-- Modelled from the spec: webpack's `compareIds`-style string comparator used
by `compareModulesByIdentifier` (from `util/comparators`, not under `src/`):
negative when the first identifier is smaller, positive when larger, zero on
equality. -/
def compareIds (a b : String) : Int :=
  if a < b then -1 else if b < a then 1 else 0

/-- Modelled from the spec: `compareIterables(compareModulesByIdentifier)`
(from `util/comparators`, not under `src/`): lexicographic comparison of the
module identifier sequences, a shorter sequence being smaller. -/
def compareModuleLists : List Module → List Module → Int
  | [], [] => 0
  | [], _ :: _ => -1
  | _ :: _, [] => 1
  | a :: as, b :: bs =>
    let c := compareIds a.id b.id
    if c = 0 then compareModuleLists as bs else c

/-- Modelled from the spec: `SortableSet.sort()` with
`compareModulesByIdentifier` orders the module set by identifier. -/
def sortModules (l : List Module) : List Module :=
  l.insertionSort (fun a b => a.id ≤ b.id)

/-- Models the JS early-return pattern `if (d) return d; ... return r`. -/
def stage (d r : Int) : Int := if d ≠ 0 then d else r

/-- Function `compareEntries` (lines 80-102): by cache-group priority, then spanned
chunk count, then size reduction `totalSize * (chunks - 1)`, then module count,
and finally by the (inverted) lexicographic comparison of the sorted module
identifier sequences. -/
def compareEntries (a b : ChunksInfoItem) : Int :=
  stage (a.cacheGroup.priority - b.cacheGroup.priority)
    (stage ((a.chunks.length : Int) - (b.chunks.length : Int))
      (stage (totalSize a.sizes * ((a.chunks.length : Int) - 1)
          - totalSize b.sizes * ((b.chunks.length : Int) - 1))
        (stage ((a.modules.length : Int) - (b.modules.length : Int))
          (compareModuleLists (sortModules b.modules) (sortModules a.modules)))))

theorem compareIds_refl (a : String) : compareIds a a = 0 := by
  simp [compareIds]

theorem compareIds_swap (a b : String) : compareIds b a = -compareIds a b := by
  unfold compareIds
  rcases lt_trichotomy a b with h | h | h
  · rw [if_neg (asymm h), if_pos h, if_pos h]
    norm_num
  · subst h
    simp
  · rw [if_pos h, if_neg (asymm h), if_pos h]

theorem compareIds_nonneg_iff (a b : String) : 0 ≤ compareIds a b ↔ b ≤ a := by
  unfold compareIds
  rcases lt_trichotomy a b with h | h | h
  · rw [if_pos h]
    simp [not_le.mpr h]
  · subst h
    simp
  · rw [if_neg (asymm h), if_pos h]
    simp [le_of_lt h]

theorem compareIds_eq_zero_iff (a b : String) : compareIds a b = 0 ↔ a = b := by
  unfold compareIds
  rcases lt_trichotomy a b with h | h | h
  · rw [if_pos h]
    simp [ne_of_lt h]
  · subst h
    simp
  · rw [if_neg (asymm h), if_pos h]
    simp [(ne_of_lt h).symm]

theorem compareModuleLists_refl : ∀ l : List Module, compareModuleLists l l = 0 := by
  intro l
  induction l with
  | nil => rfl
  | cons a as ih => simp [compareModuleLists, compareIds_refl, ih]

theorem compareModuleLists_swap :
    ∀ u v : List Module, compareModuleLists v u = -compareModuleLists u v := by
  intro u
  induction u with
  | nil =>
    intro v
    cases v <;> simp [compareModuleLists]
  | cons a as ih =>
    intro v
    cases v with
    | nil => simp [compareModuleLists]
    | cons b bs =>
      have hswap : compareIds b.id a.id = -compareIds a.id b.id := compareIds_swap a.id b.id
      by_cases hc : compareIds a.id b.id = 0
      · have hc' : compareIds b.id a.id = 0 := by rw [hswap, hc, neg_zero]
        simp [compareModuleLists, hc, hc', ih bs]
      · have hc' : compareIds b.id a.id ≠ 0 := by
          rw [hswap]
          simpa using hc
        simp [compareModuleLists, hc, hc', hswap]

theorem compareModuleLists_trans_nonneg :
    ∀ u v w : List Module, 0 ≤ compareModuleLists u v → 0 ≤ compareModuleLists v w →
      0 ≤ compareModuleLists u w := by
  intro u
  induction u with
  | nil =>
    intro v w h1 h2
    cases v with
    | nil => exact h2
    | cons b bs => simp [compareModuleLists] at h1
  | cons a as ih =>
    intro v w h1 h2
    cases v with
    | nil =>
      cases w with
      | nil => simp [compareModuleLists]
      | cons c cs => simp [compareModuleLists] at h2
    | cons b bs =>
      cases w with
      | nil => simp [compareModuleLists]
      | cons c cs =>
        simp only [compareModuleLists] at h1 h2 ⊢
        by_cases hab : compareIds a.id b.id = 0 <;>
          by_cases hbc : compareIds b.id c.id = 0
        · have he1 := (compareIds_eq_zero_iff _ _).mp hab
          have he2 := (compareIds_eq_zero_iff _ _).mp hbc
          have hac : compareIds a.id c.id = 0 := by
            rw [compareIds_eq_zero_iff, he1, he2]
          rw [if_pos hab] at h1
          rw [if_pos hbc] at h2
          rw [if_pos hac]
          exact ih bs cs h1 h2
        · have he1 := (compareIds_eq_zero_iff _ _).mp hab
          rw [if_neg hbc] at h2
          rw [he1, if_neg hbc]
          exact h2
        · have he2 := (compareIds_eq_zero_iff _ _).mp hbc
          rw [if_neg hab] at h1
          rw [← he2, if_neg hab]
          exact h1
        · rw [if_neg hab] at h1
          rw [if_neg hbc] at h2
          have hba : b.id < a.id :=
            lt_of_le_of_ne ((compareIds_nonneg_iff _ _).mp h1)
              (fun he => hab ((compareIds_eq_zero_iff _ _).mpr he.symm))
          have hcb : c.id < b.id :=
            lt_of_le_of_ne ((compareIds_nonneg_iff _ _).mp h2)
              (fun he => hbc ((compareIds_eq_zero_iff _ _).mpr he.symm))
          have hca : c.id < a.id := lt_trans hcb hba
          have hone : compareIds a.id c.id = 1 := by
            unfold compareIds
            rw [if_neg (asymm hca), if_pos hca]
          simp [hone]

theorem stage_nonneg_iff (d r : Int) : 0 ≤ stage d r ↔ (0 < d ∨ (d = 0 ∧ 0 ≤ r)) := by
  unfold stage
  split <;> omega

theorem stage_neg (d r : Int) : stage (-d) (-r) = -stage d r := by
  unfold stage
  split <;> split <;> omega

theorem stage_trans {dxy dyz dxz rxy ryz rxz : Int}
    (hd : dxy + dyz = dxz)
    (hr : 0 ≤ rxy → 0 ≤ ryz → 0 ≤ rxz)
    (h1 : 0 ≤ stage dxy rxy) (h2 : 0 ≤ stage dyz ryz) : 0 ≤ stage dxz rxz := by
  rw [stage_nonneg_iff] at h1 h2 ⊢
  rcases h1 with h1 | ⟨h1, h1r⟩ <;> rcases h2 with h2 | ⟨h2, h2r⟩
  · left; omega
  · left; omega
  · left; omega
  · right; exact ⟨by omega, hr h1r h2r⟩

theorem compareEntries_refl (a : ChunksInfoItem) : compareEntries a a = 0 := by
  unfold compareEntries
  simp [stage, compareModuleLists_refl]

theorem compareEntries_trans (x y z : ChunksInfoItem)
    (h1 : 0 ≤ compareEntries x y) (h2 : 0 ≤ compareEntries y z) :
    0 ≤ compareEntries x z := by
  unfold compareEntries at h1 h2 ⊢
  refine stage_trans (by ring) (fun a1 a2 => ?_) h1 h2
  refine stage_trans (by ring) (fun b1 b2 => ?_) a1 a2
  refine stage_trans (by ring) (fun c1 c2 => ?_) b1 b2
  refine stage_trans (by ring) (fun d1 d2 => ?_) c1 c2
  exact compareModuleLists_trans_nonneg _ _ _ d2 d1

theorem compareEntries_swap (a b : ChunksInfoItem) :
    compareEntries b a = -compareEntries a b := by
  unfold compareEntries
  rw [compareModuleLists_swap (sortModules b.modules) (sortModules a.modules)]
  rw [show b.cacheGroup.priority - a.cacheGroup.priority
      = -(a.cacheGroup.priority - b.cacheGroup.priority) from by ring]
  rw [show (b.chunks.length : Int) - (a.chunks.length : Int)
      = -((a.chunks.length : Int) - (b.chunks.length : Int)) from by ring]
  rw [show totalSize b.sizes * ((b.chunks.length : Int) - 1)
        - totalSize a.sizes * ((a.chunks.length : Int) - 1)
      = -(totalSize a.sizes * ((a.chunks.length : Int) - 1)
        - totalSize b.sizes * ((b.chunks.length : Int) - 1)) from by ring]
  rw [show (b.modules.length : Int) - (a.modules.length : Int)
      = -((a.modules.length : Int) - (b.modules.length : Int)) from by ring]
  rw [stage_neg, stage_neg, stage_neg, stage_neg]

theorem compareEntries_nonneg_of_lt (a b : ChunksInfoItem)
    (h : compareEntries a b < 0) : 0 ≤ compareEntries b a := by
  rw [compareEntries_swap]
  omega

/-- One iteration step of the best-entry scan (lines 691-701). -/
def bestEntryStep (best q : String × ChunksInfoItem) : String × ChunksInfoItem :=
  if compareEntries best.2 q.2 < 0 then q else best

/-- The best-entry scan of the selection loop (lines 687-701): the first entry
seeds `best`, every later entry replaces it only when strictly greater. -/
def findBestEntry : List (String × ChunksInfoItem) → Option (String × ChunksInfoItem)
  | [] => none
  | p :: ps => some (ps.foldl bestEntryStep p)

/-- One selection step (lines 687-704): pick the best entry and delete its key
from the pending map before processing it. -/
def selectionStep (pending : List (String × ChunksInfoItem)) :
    Option ((String × ChunksInfoItem) × List (String × ChunksInfoItem)) :=
  match findBestEntry pending with
  | none => none
  | some best => some (best, pending.filter (fun p => !(p.1 == best.1)))

theorem foldl_bestEntryStep_spec :
    ∀ (ps : List (String × ChunksInfoItem)) (b : String × ChunksInfoItem),
      ps.foldl bestEntryStep b ∈ b :: ps
      ∧ ∀ x ∈ b :: ps, 0 ≤ compareEntries (ps.foldl bestEntryStep b).2 x.2 := by
  intro ps
  induction ps with
  | nil =>
    intro b
    refine ⟨by simp, ?_⟩
    intro x hx
    simp only [List.foldl_nil, List.mem_singleton] at hx ⊢
    subst hx
    simp [compareEntries_refl]
  | cons q ps ih =>
    intro b
    have hfold : (q :: ps).foldl bestEntryStep b = ps.foldl bestEntryStep (bestEntryStep b q) :=
      rfl
    obtain ⟨ihmem, ihbound⟩ := ih (bestEntryStep b q)
    set F := ps.foldl bestEntryStep (bestEntryStep b q) with hF
    have hstep : 0 ≤ compareEntries F.2 (bestEntryStep b q).2 := ihbound _ (by simp)
    refine ⟨?_, ?_⟩
    · rw [hfold]
      rcases List.mem_cons.mp ihmem with h | h
      · rw [h]
        by_cases hbq : compareEntries b.2 q.2 < 0
        · simp [bestEntryStep, hbq]
        · simp [bestEntryStep, hbq]
      · simp [h]
    · intro x hx
      rw [hfold]
      rcases List.mem_cons.mp hx with h | h
      · -- x = b
        rw [h]
        by_cases hbq : compareEntries b.2 q.2 < 0
        · have hq : bestEntryStep b q = q := by simp [bestEntryStep, hbq]
          rw [hq] at hstep
          exact compareEntries_trans _ _ _ hstep (compareEntries_nonneg_of_lt _ _ hbq)
        · have hb : bestEntryStep b q = b := by simp [bestEntryStep, hbq]
          rw [hb] at hstep
          exact hstep
      · rcases List.mem_cons.mp h with h' | h'
        · -- x = q
          rw [h']
          by_cases hbq : compareEntries b.2 q.2 < 0
          · have hq : bestEntryStep b q = q := by simp [bestEntryStep, hbq]
            rw [hq] at hstep
            exact hstep
          · have hb : bestEntryStep b q = b := by simp [bestEntryStep, hbq]
            rw [hb] at hstep
            exact compareEntries_trans _ _ _ hstep (by omega)
        · exact ihbound x (by simp [h'])

/-- C1: the selection loop always picks a pending candidate that is maximal
under `compareEntries` (priority, then spanned chunk count, then
`totalSize * (chunks - 1)`, then module count, then the inverted lexicographic
identifier comparison), and removes its key from the pending map before
processing it. -/
theorem c1_selection_max (pending : List (String × ChunksInfoItem))
    (h : pending ≠ []) :
    ∃ best rest, selectionStep pending = some (best, rest)
      ∧ best ∈ pending
      ∧ rest = pending.filter (fun p => !(p.1 == best.1))
      ∧ ∀ q ∈ pending, 0 ≤ compareEntries best.2 q.2 := by
  cases pending with
  | nil => exact absurd rfl h
  | cons p ps =>
    obtain ⟨hmem, hbound⟩ := foldl_bestEntryStep_spec ps p
    exact ⟨ps.foldl bestEntryStep p, _, rfl, hmem, rfl, hbound⟩

/-- A second concrete module for witnesses. -/
def moduleW2 : Module where
  id := "./src/b.js"
  sizes := [("javascript", 40)]

/-- A concrete pending candidate used by the C1 witness. -/
def infoW : ChunksInfoItem where
  modules := [moduleW, moduleW2]
  cacheGroup := cgEmptyMin
  name := some "shared"
  validateSize := false
  sizes := []
  chunks := [chunkW]
  chunksKeys := ["1"]

/-- Witness for C1 on a concrete one-entry pending map. -/
theorem c1_selection_max_witness :
    ∃ best rest,
      selectionStep [("default name:shared", infoW)] = some (best, rest)
      ∧ best ∈ [("default name:shared", infoW)]
      ∧ rest = [("default name:shared", infoW)].filter (fun p => !(p.1 == best.1))
      ∧ ∀ q ∈ [("default name:shared", infoW)], 0 ≤ compareEntries best.2 q.2 :=
  c1_selection_max [("default name:shared", infoW)] (by simp)

/-- Size subtraction on module removal (lines 888-891):
`info.sizes[key] -= module.size(key)` for each source type of the module (a
key absent from the map is read as 0; in every state the builder produces, the
subtracted keys are present). -/
def subtractModuleSizes (sizes : SizeMap) (m : Module) : SizeMap :=
  m.getSourceTypes.foldl (fun acc t => mapSet acc t ((mapGet acc t).getD 0 - m.size t)) sizes

/-- One step of the retraction inner loop (lines 884-894): remove the module if
present, subtract its sizes, and record that an update happened. -/
def retractStep (acc : List Module × SizeMap × Bool) (m : Module) :
    List Module × SizeMap × Bool :=
  if m ∈ acc.1 then
    (acc.1.filter (fun x => decide (x ≠ m)), subtractModuleSizes acc.2.1 m, true)
  else acc

/-- The retraction inner loop over the modules of the materialized candidate
(lines 881-894). -/
def retractModules (item info : ChunksInfoItem) : List Module × SizeMap × Bool :=
  item.modules.foldl retractStep (info.modules, info.sizes, false)

/-- Retraction of one pending entry after a candidate is materialized
(lines 877-914): overlapping entries lose every module of the materialized
candidate; an entry is dropped when its module set becomes empty or (with size
tracking) when its updated size no longer satisfies minSize. -/
def retractEntry (item info : ChunksInfoItem) : Option ChunksInfoItem :=
  if isOverlap info.chunks item.chunks then
    if info.validateSize then
      let r := retractModules item info
      if r.2.2 then
        if r.1.isEmpty then none
        else if !(checkMinSize r.2.1 info.cacheGroup.minSize) then none
        else some { info with modules := r.1, sizes := r.2.1 }
      else some { info with modules := r.1, sizes := r.2.1 }
    else
      let ms := info.modules.filter (fun m => decide (m ∉ item.modules))
      if ms.isEmpty then none else some { info with modules := ms }
  else some info

/-- The retraction loop over the whole pending map (lines 877-914). -/
def retractAll (item : ChunksInfoItem) (pending : List (String × ChunksInfoItem)) :
    List (String × ChunksInfoItem) :=
  pending.filterMap (fun p => (retractEntry item p.2).map (fun i => (p.1, i)))

theorem retractStep_fold_subset :
    ∀ (ms : List Module) (acc : List Module × SizeMap × Bool) (x : Module),
      x ∈ (ms.foldl retractStep acc).1 → x ∈ acc.1 := by
  intro ms
  induction ms with
  | nil => intro acc x h; exact h
  | cons m ms ih =>
    intro acc x h
    have h1 : x ∈ (retractStep acc m).1 := ih (retractStep acc m) x h
    unfold retractStep at h1
    split at h1
    · exact (List.mem_filter.mp h1).1
    · exact h1

theorem retractStep_fold_removes :
    ∀ (ms : List Module) (acc : List Module × SizeMap × Bool) (m : Module),
      m ∈ ms → m ∉ (ms.foldl retractStep acc).1 := by
  intro ms
  induction ms with
  | nil => intro acc m h; simp at h
  | cons m0 ms ih =>
    intro acc m hm
    rcases List.mem_cons.mp hm with h | h
    · subst h
      intro hmem
      have h1 : m ∈ (retractStep acc m).1 := retractStep_fold_subset ms _ m hmem
      unfold retractStep at h1
      split at h1
      · have := (List.mem_filter.mp h1).2
        simp at this
      case isFalse hni => exact hni h1
    · exact ih (retractStep acc m0) m h

theorem retractStep_fold_updated_mono :
    ∀ (ms : List Module) (acc : List Module × SizeMap × Bool),
      acc.2.2 = true → (ms.foldl retractStep acc).2.2 = true := by
  intro ms
  induction ms with
  | nil => intro acc h; exact h
  | cons m ms ih =>
    intro acc h
    apply ih
    unfold retractStep
    split
    · rfl
    · exact h

theorem retractStep_fold_no_update :
    ∀ (ms : List Module) (acc : List Module × SizeMap × Bool),
      (ms.foldl retractStep acc).2.2 = false → ms.foldl retractStep acc = acc := by
  intro ms
  induction ms with
  | nil => intro acc _; rfl
  | cons m ms ih =>
    intro acc h
    by_cases hmem : m ∈ acc.1
    · exfalso
      have hstep : (retractStep acc m).2.2 = true := by
        unfold retractStep
        rw [if_pos hmem]
      have := retractStep_fold_updated_mono ms (retractStep acc m) hstep
      simp only [List.foldl_cons] at h
      rw [this] at h
      cases h
    · have hstep : retractStep acc m = acc := by
        unfold retractStep
        rw [if_neg hmem]
      simp only [List.foldl_cons, hstep] at h ⊢
      exact ih acc h

theorem retractEntry_clears (item info info' : ChunksInfoItem)
    (h : retractEntry item info = some info')
    (hov : isOverlap info'.chunks item.chunks = true) :
    ∀ m ∈ item.modules, m ∉ info'.modules := by
  intro m hm
  unfold retractEntry at h
  split at h
  case isTrue hovr =>
    split at h
    case isTrue hval =>
      dsimp only at h
      split at h
      · split at h
        · cases h
        · split at h
          · cases h
          · have := congrArg ChunksInfoItem.modules (Option.some.injEq _ _ ▸ h)
            simp only [Option.some.injEq] at h
            rw [← h]
            exact retractStep_fold_removes item.modules _ m hm
      · simp only [Option.some.injEq] at h
        rw [← h]
        exact retractStep_fold_removes item.modules _ m hm
    case isFalse hval =>
      dsimp only at h
      split at h
      · cases h
      · simp only [Option.some.injEq] at h
        rw [← h]
        intro hmem
        have := (List.mem_filter.mp hmem).2
        simp only [decide_eq_true_eq] at this
        exact this hm
  case isFalse hovr =>
    simp only [Option.some.injEq] at h
    rw [← h] at hov
    exact absurd hov (by simpa using hovr)

/-- C3: after a candidate is materialized, every entry still pending whose
chunk set overlaps the chunk set of the materialized candidate contains none of its
modules; an overlapping entry whose module set becomes empty, or (with size
tracking enabled) whose updated size fails the minSize of its cache group, is
removed from the pending map. -/
theorem c3_retraction :
    (∀ (item : ChunksInfoItem) (pending : List (String × ChunksInfoItem)) (k : String)
        (info : ChunksInfoItem),
        (k, info) ∈ retractAll item pending →
        isOverlap info.chunks item.chunks = true →
        ∀ m ∈ item.modules, m ∉ info.modules)
    ∧ (∀ item info : ChunksInfoItem,
        isOverlap info.chunks item.chunks = true →
        info.modules ≠ [] →
        ((info.validateSize = true → (retractModules item info).1 = [] →
            retractEntry item info = none)
          ∧ (info.validateSize = false →
              info.modules.filter (fun m => decide (m ∉ item.modules)) = [] →
              retractEntry item info = none)))
    ∧ (∀ item info : ChunksInfoItem,
        isOverlap info.chunks item.chunks = true →
        info.validateSize = true →
        (retractModules item info).2.2 = true →
        checkMinSize (retractModules item info).2.1 info.cacheGroup.minSize = false →
        retractEntry item info = none) := by
  refine ⟨?_, ?_, ?_⟩
  · intro item pending k info hmem hov
    obtain ⟨p, hp, hmap⟩ := List.mem_filterMap.mp hmem
    obtain ⟨i, hi, heq⟩ := Option.map_eq_some'.mp hmap
    have hk : p.1 = k := congrArg Prod.fst heq
    have hinfo : i = info := congrArg Prod.snd heq
    rw [hinfo] at hi
    exact retractEntry_clears item p.2 info hi hov
  · intro item info hov hne
    constructor
    · intro hval hempty
      unfold retractEntry
      rw [if_pos hov, if_pos hval]
      by_cases hupd : (retractModules item info).2.2 = true
      · simp only [hupd, if_true]
        rw [if_pos (by simp [hempty])]
      · exfalso
        have hno : retractModules item info = (info.modules, info.sizes, false) :=
          retractStep_fold_no_update item.modules _ (by simpa using hupd)
        rw [hno] at hempty
        exact hne hempty
    · intro hval hfilter
      unfold retractEntry
      rw [if_pos hov, if_neg (by simp [hval])]
      simp only [hfilter]
      rfl
  · intro item info hov hval hupd hmin
    unfold retractEntry
    rw [if_pos hov, if_pos hval]
    simp only [hupd, if_true]
    by_cases hempty : (retractModules item info).1.isEmpty
    · rw [if_pos hempty]
    · rw [if_neg hempty, if_pos (by simp [hmin])]

/-- Concrete materialized candidate for the C3 witness. -/
def itemR : ChunksInfoItem where
  modules := [moduleW]
  cacheGroup := cgEmptyMin
  name := some "shared"
  validateSize := false
  sizes := []
  chunks := [chunkW]
  chunksKeys := ["1"]

/-- Concrete overlapping pending candidate for the C3 witness. -/
def infoR : ChunksInfoItem where
  modules := [moduleW]
  cacheGroup := cgEmptyMin
  name := none
  validateSize := true
  sizes := [("javascript", 120)]
  chunks := [chunkW]
  chunksKeys := ["1"]

/-- Witness for C3: an overlapping candidate emptied by the retraction is
removed from the pending map. -/
theorem c3_retraction_witness : retractEntry itemR infoR = none :=
  (c3_retraction.2.1 itemR infoR rfl (by simp [infoR])).1 rfl rfl

/-- The per-chunk match test of the reuse loop (lines 713-723): the chunk must
hold exactly as many modules as the candidate, own no entry modules, and
contain every candidate module. -/
def reuseMatch (item : ChunksInfoItem) (c : Chunk) : Bool :=
  decide (c.modules.length = item.modules.length) && decide (c.entryCount = 0)
    && item.modules.all (fun m => decide (m ∈ c.modules))

/-- The best-reuse-chunk update (lines 724-737): any chunk replaces a missing
or unnamed best; a named chunk replaces a named best only when its name is
shorter, or of equal length and lexicographically smaller. -/
def pickReuse (best : Option Chunk) (c : Chunk) : Option Chunk :=
  match best with
  | none => some c
  | some b =>
    match b.name with
    | none => some c
    | some bn =>
      match c.name with
      | none => some b
      | some cn =>
        if cn.length < bn.length then some c
        else if cn.length = bn.length ∧ cn < bn then some c
        else some b

/-- One iteration of the reuse loop (lines 713-740): non-matching chunks are
skipped. -/
def reuseStep (item : ChunksInfoItem) (best : Option Chunk) (c : Chunk) : Option Chunk :=
  if reuseMatch item c then pickReuse best c else best

/-- The chunk selected for reuse (lines 711-741); `none` when the cache group
forbids reuse or nothing matches. -/
def reuseNewChunk (item : ChunksInfoItem) : Option Chunk :=
  if item.cacheGroup.reuseExistingChunk then item.chunks.foldl (reuseStep item) none
  else none

/-- Whether the loop marked the candidate as reused (`isReused`, line 739). -/
def reuseIsReused (item : ChunksInfoItem) : Bool :=
  item.cacheGroup.reuseExistingChunk && item.chunks.any (reuseMatch item)

/-- The resolved name of the candidate after the reuse loop: cleared whenever a
match was found (`chunkName = undefined`, line 738). -/
def reuseChunkName (item : ChunksInfoItem) : Option String :=
  if reuseIsReused item then none else item.name

/-- The preference order on chunk names used by the reuse loop: shorter first,
then lexicographically smaller. -/
def nameKeyLe (x y : String) : Prop :=
  x.length < y.length ∨ (x.length = y.length ∧ x ≤ y)

theorem nameKeyLe_refl (x : String) : nameKeyLe x x := Or.inr ⟨rfl, le_refl x⟩

theorem nameKeyLe_trans {x y z : String} (h1 : nameKeyLe x y) (h2 : nameKeyLe y z) :
    nameKeyLe x z := by
  rcases h1 with h1 | ⟨e1, l1⟩ <;> rcases h2 with h2 | ⟨e2, l2⟩
  · left; omega
  · left; omega
  · left; omega
  · right; exact ⟨by omega, le_trans l1 l2⟩

theorem pickReuse_isSome (a : Option Chunk) (c : Chunk) : ∃ r, pickReuse a c = some r := by
  cases a with
  | none => exact ⟨c, rfl⟩
  | some b =>
    simp only [pickReuse]
    cases hb : b.name with
    | none => exact ⟨c, rfl⟩
    | some bn =>
      cases hc : c.name with
      | none => exact ⟨b, rfl⟩
      | some cn =>
        by_cases h1 : cn.length < bn.length
        · exact ⟨c, by dsimp only; rw [if_pos h1]⟩
        · by_cases h2 : cn.length = bn.length ∧ cn < bn
          · exact ⟨c, by dsimp only; rw [if_neg h1, if_pos h2]⟩
          · exact ⟨b, by dsimp only; rw [if_neg h1, if_neg h2]⟩

theorem pickReuse_cases (a : Option Chunk) (c r : Chunk) (h : pickReuse a c = some r) :
    a = some r ∨ r = c := by
  cases a with
  | none => right; exact (Option.some.inj h).symm
  | some b =>
    simp only [pickReuse] at h
    revert h
    cases hb : b.name with
    | none =>
      intro h
      right; exact (Option.some.inj h).symm
    | some bn =>
      cases hc : c.name with
      | none =>
        intro h
        left; exact h
      | some cn =>
        intro h
        dsimp only at h
        by_cases h1 : cn.length < bn.length
        · rw [if_pos h1] at h
          right; exact (Option.some.inj h).symm
        · rw [if_neg h1] at h
          by_cases h2 : cn.length = bn.length ∧ cn < bn
          · rw [if_pos h2] at h
            right; exact (Option.some.inj h).symm
          · rw [if_neg h2] at h
            left; exact h

theorem foldl_pickReuse_some :
    ∀ (M : List Chunk) (a : Option Chunk), (∃ b, a = some b) →
      ∃ r, M.foldl pickReuse a = some r := by
  intro M
  induction M with
  | nil => intro a h; exact h
  | cons m M ih =>
    intro a _
    exact ih (pickReuse a m) (pickReuse_isSome a m)

theorem foldl_pickReuse_mem :
    ∀ (M : List Chunk) (a : Option Chunk) (r : Chunk),
      M.foldl pickReuse a = some r → a = some r ∨ r ∈ M := by
  intro M
  induction M with
  | nil => intro a r h; exact Or.inl h
  | cons m M ih =>
    intro a r h
    rcases ih (pickReuse a m) r h with h1 | h1
    · rcases pickReuse_cases a m r h1 with h2 | h2
      · exact Or.inl h2
      · exact Or.inr (by simp [h2])
    · exact Or.inr (by simp [h1])

theorem foldl_pickReuse_named :
    ∀ (M : List Chunk) (a : Option Chunk) (c : Chunk) (cn : String),
      (c ∈ M ∨ a = some c) → c.name = some cn →
      ∃ r rn, M.foldl pickReuse a = some r ∧ r.name = some rn ∧ nameKeyLe rn cn := by
  intro M
  induction M with
  | nil =>
    intro a c cn hmem hname
    rcases hmem with h | h
    · simp at h
    · exact ⟨c, cn, h, hname, nameKeyLe_refl cn⟩
  | cons m M ih =>
    intro a c cn hmem hname
    rcases hmem with h | h
    · rcases List.mem_cons.mp h with h1 | h1
      · -- c is the head
        subst h1
        cases a with
        | none => exact ih (some c) c cn (Or.inr rfl) hname
        | some b =>
          cases hb : b.name with
          | none =>
            have hstep : pickReuse (some b) c = some c := by
              simp only [pickReuse, hb]
            simp only [List.foldl_cons, hstep]
            exact ih (some c) c cn (Or.inr rfl) hname
          | some bn =>
            by_cases h1 : cn.length < bn.length
            · have hstep : pickReuse (some b) c = some c := by
                simp only [pickReuse, hb, hname]
                rw [if_pos h1]
              simp only [List.foldl_cons, hstep]
              exact ih (some c) c cn (Or.inr rfl) hname
            · by_cases h2 : cn.length = bn.length ∧ cn < bn
              · have hstep : pickReuse (some b) c = some c := by
                  simp only [pickReuse, hb, hname]
                  rw [if_neg h1, if_pos h2]
                simp only [List.foldl_cons, hstep]
                exact ih (some c) c cn (Or.inr rfl) hname
              · have hstep : pickReuse (some b) c = some b := by
                  simp only [pickReuse, hb, hname]
                  rw [if_neg h1, if_neg h2]
                simp only [List.foldl_cons, hstep]
                have hkey : nameKeyLe bn cn := by
                  unfold nameKeyLe
                  rcases Nat.lt_or_ge bn.length cn.length with hl | hl
                  · exact Or.inl hl
                  · have he : cn.length = bn.length := by omega
                    refine Or.inr ⟨he.symm, ?_⟩
                    rcases le_or_lt bn cn with h3 | h3
                    · exact h3
                    · exact absurd ⟨he, h3⟩ h2
                obtain ⟨r, rn, hf, hrn, hk⟩ := ih (some b) b bn (Or.inr rfl) hb
                exact ⟨r, rn, hf, hrn, nameKeyLe_trans hk hkey⟩
      · exact ih (pickReuse a m) c cn (Or.inl h1) hname
    · -- c is the accumulator
      subst h
      cases hm : m.name with
      | none =>
        have hstep : pickReuse (some c) m = some c := by
          simp only [pickReuse, hname, hm]
        simp only [List.foldl_cons, hstep]
        exact ih (some c) c cn (Or.inr rfl) hname
      | some mn =>
        by_cases h1 : mn.length < cn.length
        · have hstep : pickReuse (some c) m = some m := by
            simp only [pickReuse, hname, hm]
            rw [if_pos h1]
          simp only [List.foldl_cons, hstep]
          obtain ⟨r, rn, hf, hrn, hk⟩ := ih (some m) m mn (Or.inr rfl) hm
          exact ⟨r, rn, hf, hrn, nameKeyLe_trans hk (Or.inl h1)⟩
        · by_cases h2 : mn.length = cn.length ∧ mn < cn
          · have hstep : pickReuse (some c) m = some m := by
              simp only [pickReuse, hname, hm]
              rw [if_neg h1, if_pos h2]
            simp only [List.foldl_cons, hstep]
            obtain ⟨r, rn, hf, hrn, hk⟩ := ih (some m) m mn (Or.inr rfl) hm
            exact ⟨r, rn, hf, hrn, nameKeyLe_trans hk (Or.inr ⟨h2.1, le_of_lt h2.2⟩)⟩
          · have hstep : pickReuse (some c) m = some c := by
              simp only [pickReuse, hname, hm]
              rw [if_neg h1, if_neg h2]
            simp only [List.foldl_cons, hstep]
            exact ih (some c) c cn (Or.inr rfl) hname

theorem foldl_pickReuse_unnamed :
    ∀ (M : List Chunk) (a : Option Chunk),
      (∀ c ∈ M, c.name = none) →
      (a = none ∨ ∃ b, a = some b ∧ b.name = none) →
      M ≠ [] →
      M.foldl pickReuse a = M.getLast? := by
  intro M
  induction M with
  | nil => intro a _ _ h; exact absurd rfl h
  | cons m M ih =>
    intro a hun ha _
    have hm : m.name = none := hun m (by simp)
    have hstep : pickReuse a m = some m := by
      rcases ha with h | ⟨b, hb, hbn⟩
      · rw [h]; rfl
      · rw [hb]; simp only [pickReuse, hbn]
    simp only [List.foldl_cons, hstep]
    cases M with
    | nil => rfl
    | cons m2 M2 =>
      rw [List.getLast?_cons_cons]
      exact ih (some m) (fun c hc => hun c (by simp [hc]))
        (Or.inr ⟨m, rfl, hm⟩) (by simp)

theorem foldl_reuseStep_eq (item : ChunksInfoItem) :
    ∀ (cs : List Chunk) (a : Option Chunk),
      cs.foldl (reuseStep item) a = (cs.filter (reuseMatch item)).foldl pickReuse a := by
  intro cs
  induction cs with
  | nil => intro a; rfl
  | cons c cs ih =>
    intro a
    by_cases hc : reuseMatch item c = true
    · simp only [List.foldl_cons, reuseStep, hc, if_true, List.filter_cons_of_pos hc,
        List.foldl_cons]
      exact ih (pickReuse a c)
    · simp only [List.foldl_cons, reuseStep, hc, if_false, List.filter_cons_of_neg hc]
      exact ih a

theorem reuseMatch_iff (item : ChunksInfoItem) (c : Chunk)
    (hc : c.modules.Nodup) (hi : item.modules.Nodup) :
    reuseMatch item c = true ↔
      (c.entryCount = 0 ∧ ∀ m, m ∈ c.modules ↔ m ∈ item.modules) := by
  unfold reuseMatch
  simp only [Bool.and_eq_true, decide_eq_true_eq, List.all_eq_true]
  constructor
  · rintro ⟨⟨hlen, hent⟩, hall⟩
    refine ⟨hent, ?_⟩
    have hsub : item.modules.toFinset ⊆ c.modules.toFinset := by
      intro m hm
      rw [List.mem_toFinset] at hm ⊢
      simpa using hall m hm
    have hcard : c.modules.toFinset.card ≤ item.modules.toFinset.card := by
      rw [List.toFinset_card_of_nodup hc, List.toFinset_card_of_nodup hi]
      omega
    have heq := Finset.eq_of_subset_of_card_le hsub hcard
    intro m
    rw [← List.mem_toFinset, ← heq, List.mem_toFinset]
  · rintro ⟨hent, hmem⟩
    have heq : c.modules.toFinset = item.modules.toFinset :=
      Finset.ext (fun m => by simp [List.mem_toFinset, hmem m])
    refine ⟨⟨?_, hent⟩, ?_⟩
    · have hcard := congrArg Finset.card heq
      rw [List.toFinset_card_of_nodup hc, List.toFinset_card_of_nodup hi] at hcard
      exact hcard
    · intro m hm
      simp [(hmem m).mpr hm]

/-- A cache group allowing reuse, for the C4 theorems. -/
def cgReuse : CacheGroup :=
  { cgEmptyMin with reuseExistingChunk := true }

/-- An unnamed chunk whose modules exactly match the candidate. -/
def chunkU : Chunk where
  name := none
  modules := [moduleW]
  entryCount := 0
  isOnlyInitial := false
  canBeInitial := false
  groupSizes := []
  filenameTemplate := none

/-- A named chunk whose modules exactly match the candidate. -/
def chunkA : Chunk :=
  { chunkU with name := some "a" }

/-- A reusable candidate spanning an unnamed and a named matching chunk. -/
def itemReuse : ChunksInfoItem where
  modules := [moduleW]
  cacheGroup := cgReuse
  name := some "orig"
  validateSize := false
  sizes := []
  chunks := [chunkU, chunkA]
  chunksKeys := ["1"]

/-- C4 counterexample: both spanned chunks exactly match the module
set and own no entry modules, one of them has no name, yet the reuse loop
selects the named chunk `"a"` — the code does not prefer the chunk with no
name, refuting the claimed preference order. -/
theorem c4_reuse_counterexample :
    reuseMatch itemReuse chunkU = true
    ∧ chunkU.name = none
    ∧ reuseMatch itemReuse chunkA = true
    ∧ reuseNewChunk itemReuse = some chunkA
    ∧ chunkA.name = some "a" :=
  ⟨rfl, rfl, rfl, rfl, rfl⟩

/-- C4 (amended): when the cache group allows reuse the loop scans the spanned
chunks for matches (same module count, every candidate module contained, no
entry modules — exact membership equality for duplicate-free module lists).
Named matches are preferred: the selected chunk is a named matching chunk with
minimal name length, ties broken lexicographically; only when every match is
unnamed is the last matching chunk selected. The resolved name is cleared
whenever any match exists. -/
theorem c4_reuse_amended (item : ChunksInfoItem)
    (hre : item.cacheGroup.reuseExistingChunk = true) :
    (item.chunks.filter (reuseMatch item) = [] →
      reuseNewChunk item = none ∧ reuseChunkName item = item.name)
    ∧ (item.chunks.filter (reuseMatch item) ≠ [] →
        (∃ r, reuseNewChunk item = some r ∧ r ∈ item.chunks.filter (reuseMatch item))
        ∧ reuseChunkName item = none)
    ∧ ((∀ c ∈ item.chunks.filter (reuseMatch item), c.name = none) →
        item.chunks.filter (reuseMatch item) ≠ [] →
        reuseNewChunk item = (item.chunks.filter (reuseMatch item)).getLast?)
    ∧ (∀ c ∈ item.chunks.filter (reuseMatch item), ∀ cn, c.name = some cn →
        ∃ r rn, reuseNewChunk item = some r ∧ r.name = some rn ∧ nameKeyLe rn cn)
    ∧ (∀ c : Chunk, c.modules.Nodup → item.modules.Nodup →
        (reuseMatch item c = true ↔
          (c.entryCount = 0 ∧ ∀ m, m ∈ c.modules ↔ m ∈ item.modules))) := by
  have hnc : reuseNewChunk item
      = (item.chunks.filter (reuseMatch item)).foldl pickReuse none := by
    unfold reuseNewChunk
    rw [if_pos hre, foldl_reuseStep_eq]
  refine ⟨?_, ?_, ?_, ?_, ?_⟩
  · intro hM
    constructor
    · rw [hnc, hM]
      rfl
    · have hany : item.chunks.any (reuseMatch item) = false := by
        rw [List.any_eq_false]
        intro x hx
        intro hmat
        have : x ∈ item.chunks.filter (reuseMatch item) := List.mem_filter.mpr ⟨hx, hmat⟩
        rw [hM] at this
        simp at this
      unfold reuseChunkName reuseIsReused
      rw [hre, hany]
      rfl
  · intro hM
    constructor
    · cases hMc : item.chunks.filter (reuseMatch item) with
      | nil => exact absurd hMc hM
      | cons m M' =>
        obtain ⟨r, hr⟩ := foldl_pickReuse_some M' (pickReuse none m) ⟨m, rfl⟩
        refine ⟨r, ?_, ?_⟩
        · rw [hnc, hMc]
          exact hr
        · have hmem := foldl_pickReuse_mem (m :: M') none r (by rw [← hMc, ← hnc, hnc, hMc]; exact hr)
          rcases hmem with h | h
          · cases h
          · exact h
    · obtain ⟨x, hx⟩ := List.exists_mem_of_ne_nil _ hM
      have hxf := List.mem_filter.mp hx
      have hany : item.chunks.any (reuseMatch item) = true :=
        List.any_eq_true.mpr ⟨x, hxf.1, hxf.2⟩
      unfold reuseChunkName reuseIsReused
      rw [hre, hany]
      rfl
  · intro hun hM
    rw [hnc]
    exact foldl_pickReuse_unnamed _ none hun (Or.inl rfl) hM
  · intro c hc cn hcn
    rw [hnc]
    exact foldl_pickReuse_named _ none c cn (Or.inl hc) hcn
  · intro c hc hi
    exact reuseMatch_iff item c hc hi

/-- Witness for C4 (amended) at the concrete candidate: a match exists, so a
chunk is selected for reuse and the resolved name is cleared. -/
theorem c4_reuse_amended_witness :
    (∃ r, reuseNewChunk itemReuse = some r
        ∧ r ∈ itemReuse.chunks.filter (reuseMatch itemReuse))
      ∧ reuseChunkName itemReuse = none :=
  (c4_reuse_amended itemReuse rfl).2.1 (by decide)

/-- Function `getKey` (lines 379-383): the chunk-set identity, i.e. the sorted
comma-joined chunk indices under the index assignment of the pass. -/
def getKeyOfChunks (indexOf : Chunk → Nat) (chunks : List Chunk) : String :=
  String.intercalate "," (((chunks.map indexOf).insertionSort (· ≤ ·)).map toString)

/-- The per-chunk request ceiling (lines 758-767): initial budget for purely
initial chunks, the minimum of both budgets for chunks that can be initial,
else the async budget. -/
def chunkMaxRequests (cg : CacheGroup) (c : Chunk) : JNum :=
  if c.isOnlyInitial then cg.maxInitialRequests
  else if c.canBeInitial then cg.maxInitialRequests.jmin cg.maxAsyncRequests
  else cg.maxAsyncRequests

/-- The filtered chunk list of the request-budget check (lines 758-773): the
used chunks under their ceiling, with the reused chunk appended afterwards. -/
def chunksInLimitOf (item : ChunksInfoItem) (usedChunks : List Chunk)
    (isReused : Bool) (newChunk : Option Chunk) : List Chunk :=
  let f := usedChunks.filter
    (fun c => requestsUnder (getRequests c) (chunkMaxRequests item.cacheGroup c))
  if isReused then f ++ newChunk.toList else f

/-- Outcome of the request-budget check: `proceed` falls through to
materialization; `deferred` re-inserted the candidate and continues the loop;
`dropped` continues the loop without re-inserting. -/
inductive BudgetDecision where
  | proceed
  | deferred (st : SplitState)
  | dropped

/-- The request-budget check (lines 754-788): with a finite budget, filter the
used chunks to those under their ceiling; when at least one chunk was removed,
re-insert every module of the candidate for the filtered chunk list when it
still meets minChunks, else drop the candidate. -/
def requestBudgetCheck (indexOf : Chunk → Nat) (item : ChunksInfoItem)
    (usedChunks : List Chunk) (isReused : Bool) (newChunk : Option Chunk)
    (st : SplitState) : BudgetDecision :=
  if item.cacheGroup.maxInitialRequests.isFinite
      || item.cacheGroup.maxAsyncRequests.isFinite then
    let chunksInLimit := chunksInLimitOf item usedChunks isReused newChunk
    if chunksInLimit.length < usedChunks.length then
      if item.cacheGroup.minChunks ≤ chunksInLimit.length then
        .deferred (item.modules.foldl
          (fun s m => addModuleToChunksInfoMap item.cacheGroup chunksInLimit
            (getKeyOfChunks indexOf chunksInLimit) m s) st)
      else .dropped
    else .proceed
  else .proceed

theorem mem_addUnique {α : Type} [DecidableEq α] (l : List α) (c x : α)
    (h : x ∈ addUnique l c) : x ∈ l ∨ x = c := by
  unfold addUnique at h
  split at h
  · exact Or.inl h
  · rcases List.mem_append.mp h with h1 | h1
    · exact Or.inl h1
    · exact Or.inr (by simpa using h1)

theorem mem_foldl_addUnique {α : Type} [DecidableEq α] :
    ∀ (sel : List α) (init : List α) (x : α),
      x ∈ sel.foldl addUnique init → x ∈ init ∨ x ∈ sel := by
  intro sel
  induction sel with
  | nil => intro init x h; exact Or.inl h
  | cons c cs ih =>
    intro init x h
    rcases ih (addUnique init c) x h with h1 | h1
    · rcases mem_addUnique init c x h1 with h2 | h2
      · exact Or.inl h2
      · exact Or.inr (by simp [h2])
    · exact Or.inr (by simp [h1])

theorem updateInfo_name (info : ChunksInfoItem) (sel : List Chunk)
    (sk : String) (m : Module) :
    (updateInfo info sel sk m).name = info.name := by
  by_cases hv : info.validateSize = true <;> by_cases hk : sk ∈ info.chunksKeys <;>
    simp [updateInfo, hv, hk]

theorem updateInfo_fresh_chunks (cg : CacheGroup) (name : Option String)
    (sel : List Chunk) (sk : String) (m : Module) :
    ∀ c ∈ (updateInfo (freshInfo cg name) sel sk m).chunks, c ∈ sel := by
  intro c hc
  by_cases hv : (freshInfo cg name).validateSize = true <;>
    simp only [updateInfo, hv, if_true, if_false] at hc <;>
    · simp only [freshInfo] at hc
      rcases mem_foldl_addUnique sel [] c (by simpa using hc) with h | h
      · simp at h
      · exact h

/-- C5 counterexample input: a cache group with a constant name function and a
finite async budget. -/
def cgFoo : CacheGroup :=
  { cgEmptyMin with
    key := "cg"
    getName := fun _ _ _ => some "foo"
    maxAsyncRequests := .fin 1 }

/-- An async chunk under the request budget. -/
def chunkC1 : Chunk where
  name := none
  modules := []
  entryCount := 0
  isOnlyInitial := false
  canBeInitial := false
  groupSizes := []
  filenameTemplate := none

/-- An async chunk over the request budget. -/
def chunkC2 : Chunk :=
  { chunkC1 with groupSizes := [5] }

/-- The candidate hitting the request budget. -/
def itemBudget : ChunksInfoItem where
  modules := [moduleW]
  cacheGroup := cgFoo
  name := some "foo"
  validateSize := false
  sizes := []
  chunks := [chunkC1, chunkC2]
  chunksKeys := ["1,2"]

/-- The chunk-index assignment of the pass for the C5 counterexample. -/
def indexOfW : Chunk → Nat := fun _ => 1

/-- The chunk-set key of the filtered list in the C5 counterexample. -/
def skBudget : String := getKeyOfChunks indexOfW (chunksInLimitOf itemBudget [chunkC1, chunkC2] false none)

/-- The state after the C5 re-insertion. -/
def stBudget : SplitState :=
  addModuleToChunksInfoMap cgFoo (chunksInLimitOf itemBudget [chunkC1, chunkC2] false none)
    skBudget moduleW stEmpty

/-- The single candidate re-inserted by the C5 counterexample run. -/
def infoFoo : ChunksInfoItem :=
  updateInfo (freshInfo cgFoo (some "foo"))
    (chunksInLimitOf itemBudget [chunkC1, chunkC2] false none) skBudget moduleW

/-- C5 counterexample: the request-budget trim removes a chunk and the
candidate is re-inserted, but the name of the re-inserted candidate is the name
recomputed by the name function of the cache group (`"foo"`), not cleared. -/
theorem c5_budget_counterexample :
    requestBudgetCheck indexOfW itemBudget [chunkC1, chunkC2] false none stEmpty
      = .deferred stBudget
    ∧ stBudget.chunksInfoMap = [("cg name:foo", infoFoo)]
    ∧ infoFoo.name = some "foo" :=
  ⟨rfl, rfl, rfl⟩

/-- C5 (amended): when the budget filter removes at least one used chunk, the
module set of the candidate is re-inserted for the filtered chunk list when it
still meets minChunks — through the normal accumulation path, which recomputes
the name via the name function of the cache group and restricts the chunks of
the new candidate to the filtered list — and the loop moves on without materializing;
when the filtered count is below minChunks the candidate is dropped
entirely. -/
theorem c5_budget_amended (indexOf : Chunk → Nat) (item : ChunksInfoItem)
    (usedChunks : List Chunk) (isReused : Bool) (newChunk : Option Chunk)
    (st : SplitState)
    (hfin : (item.cacheGroup.maxInitialRequests.isFinite
        || item.cacheGroup.maxAsyncRequests.isFinite) = true)
    (hlt : (chunksInLimitOf item usedChunks isReused newChunk).length < usedChunks.length) :
    (item.cacheGroup.minChunks ≤ (chunksInLimitOf item usedChunks isReused newChunk).length →
      requestBudgetCheck indexOf item usedChunks isReused newChunk st
        = .deferred (item.modules.foldl
            (fun s m => addModuleToChunksInfoMap item.cacheGroup
              (chunksInLimitOf item usedChunks isReused newChunk)
              (getKeyOfChunks indexOf (chunksInLimitOf item usedChunks isReused newChunk))
              m s) st))
    ∧ ((chunksInLimitOf item usedChunks isReused newChunk).length < item.cacheGroup.minChunks →
        requestBudgetCheck indexOf item usedChunks isReused newChunk st = .dropped)
    ∧ (∀ (cg : CacheGroup) (sel : List Chunk) (sk : String) (mo : Module)
        (st0 : SplitState) (k : String) (i : ChunksInfoItem),
        mapGet (addModuleToChunksInfoMap cg sel sk mo st0).chunksInfoMap k = some i →
        mapGet st0.chunksInfoMap k = none →
        i.name = cg.getName mo sel cg.key ∧ ∀ c ∈ i.chunks, c ∈ sel) := by
  refine ⟨?_, ?_, ?_⟩
  · intro hmin
    unfold requestBudgetCheck
    rw [if_pos hfin]
    simp only [if_pos hlt, if_pos hmin]
  · intro hmin
    unfold requestBudgetCheck
    rw [if_pos hfin]
    simp only [if_pos hlt]
    rw [if_neg (by omega)]
  · intro cg sel sk mo st0 k i hres hnone
    unfold addModuleToChunksInfoMap at hres
    split at hres
    · rw [hnone] at hres; exact absurd hres (by simp)
    · simp only [validateName_chunksInfoMap] at hres
      by_cases hk : k = mkCandidateKey cg.key (cg.getName mo sel cg.key) sk
      · subst hk
        rw [mapGet_mapSet_self] at hres
        simp only [Option.some.injEq] at hres
        have hfresh : i = updateInfo (freshInfo cg (cg.getName mo sel cg.key)) sel sk mo := by
          rw [← hres, hnone]; rfl
        constructor
        · rw [hfresh, updateInfo_name]
          rfl
        · rw [hfresh]
          exact updateInfo_fresh_chunks cg _ sel sk mo
      · rw [mapGet_mapSet_ne _ _ _ _ hk, hnone] at hres
        exact absurd hres (by simp)

/-- Witness for C5 (amended) at the concrete counterexample input. -/
theorem c5_budget_amended_witness :
    requestBudgetCheck indexOfW itemBudget [chunkC1, chunkC2] false none stEmpty
      = .deferred (itemBudget.modules.foldl
          (fun s m => addModuleToChunksInfoMap itemBudget.cacheGroup
            (chunksInLimitOf itemBudget [chunkC1, chunkC2] false none)
            (getKeyOfChunks indexOfW (chunksInLimitOf itemBudget [chunkC1, chunkC2] false none))
            m s) stEmpty) :=
  (c5_budget_amended indexOfW itemBudget [chunkC1, chunkC2] false none stEmpty rfl
    (by decide)).1 (by decide)

/-- Modelled from the spec: `isSubset(bigSet, smallSet)` from `util/SetHelpers`
(not under `src/`), true when every element of the small set is in the big
set. -/
def isSubset (big small : List Chunk) : Bool :=
  small.all (fun x => decide (x ∈ big))

/-- Function `getCombinations` (lines 416-432): the owning set plus, when it has more
than one chunk, every registered set from a strictly smaller cardinality
bucket that is a subset of it. -/
def getCombinations (chunkSetsByCount : List (Nat × List (List Chunk)))
    (chunksSet : List Chunk) : List (List Chunk) :=
  if 1 < chunksSet.length then
    chunkSetsByCount.foldl
      (fun acc p =>
        if p.1 < chunksSet.length then
          acc ++ p.2.filter (fun s => isSubset chunksSet s)
        else acc)
      [chunksSet]
  else [chunksSet]

theorem foldl_combinations_mem (own : List Chunk) :
    ∀ (bc : List (Nat × List (List Chunk))) (acc : List (List Chunk)) (s : List Chunk),
      s ∈ bc.foldl
        (fun acc p =>
          if p.1 < own.length then acc ++ p.2.filter (fun t => isSubset own t) else acc)
        acc
      ↔ s ∈ acc ∨ ∃ p ∈ bc, p.1 < own.length ∧ s ∈ p.2 ∧ isSubset own s = true := by
  intro bc
  induction bc with
  | nil => simp
  | cons p ps ih =>
    intro acc s
    simp only [List.foldl_cons]
    rw [ih]
    by_cases hp : p.1 < own.length
    · rw [if_pos hp]
      constructor
      · rintro (h | h)
        · rcases List.mem_append.mp h with h1 | h1
          · exact Or.inl h1
          · have hm := List.mem_filter.mp h1
            exact Or.inr ⟨p, by simp, hp, hm.1, hm.2⟩
        · obtain ⟨q, hq, h2, h3, h4⟩ := h
          exact Or.inr ⟨q, by simp [hq], h2, h3, h4⟩
      · rintro (h | h)
        · exact Or.inl (List.mem_append.mpr (Or.inl h))
        · obtain ⟨q, hq, h2, h3, h4⟩ := h
          rcases List.mem_cons.mp hq with h5 | h5
          · subst h5
            exact Or.inl (List.mem_append.mpr (Or.inr (List.mem_filter.mpr ⟨h3, h4⟩)))
          · exact Or.inr ⟨q, h5, h2, h3, h4⟩
    · rw [if_neg hp]
      constructor
      · rintro (h | h)
        · exact Or.inl h
        · obtain ⟨q, hq, h2, h3, h4⟩ := h
          exact Or.inr ⟨q, by simp [hq], h2, h3, h4⟩
      · rintro (h | h)
        · exact Or.inl h
        · obtain ⟨q, hq, h2, h3, h4⟩ := h
          rcases List.mem_cons.mp hq with h5 | h5
          · subst h5
            exact absurd h2 hp
          · exact Or.inr ⟨q, h5, h2, h3, h4⟩

/-- C7 counterexample: with the empty chunk set registered (cardinality 0) and
an owning set of one chunk, the empty set is registered, strictly smaller, and
a subset of the owning set, yet it is not among the combinations — the
`size > 1` guard skips the smaller buckets for singleton owners. -/
theorem c7_combinations_counterexample :
    (∃ p ∈ [((0 : Nat), [([] : List Chunk)])], ([] : List Chunk) ∈ p.2)
    ∧ ([] : List Chunk).length < [chunkW].length
    ∧ isSubset [chunkW] [] = true
    ∧ ([] : List Chunk) ∉ getCombinations [(0, [[]])] [chunkW]
    ∧ (∀ p ∈ [((0 : Nat), [([] : List Chunk)])], ∀ s ∈ p.2, s.length = p.1) := by
  decide

/-- C7 (amended): for an owning set with at least two chunks, the combinations
are exactly the owning set plus every registered chunk set of strictly smaller
cardinality that is a subset of it, and nothing of equal or larger cardinality
other than the owning set itself is included; for an owning set with at most
one chunk the smaller buckets are not scanned and the combinations are the
owning set alone. -/
theorem c7_combinations_amended (bc : List (Nat × List (List Chunk))) (own : List Chunk)
    (hwf : ∀ p ∈ bc, ∀ s ∈ p.2, s.length = p.1) :
    (1 < own.length →
      ∀ s, s ∈ getCombinations bc own ↔
        (s = own ∨
          ((∃ p ∈ bc, s ∈ p.2) ∧ s.length < own.length ∧ isSubset own s = true)))
    ∧ (own.length ≤ 1 → getCombinations bc own = [own])
    ∧ (∀ s, s ∈ getCombinations bc own → s ≠ own → s.length < own.length) := by
  have hmain : 1 < own.length →
      ∀ s, s ∈ getCombinations bc own ↔
        (s = own ∨
          ((∃ p ∈ bc, s ∈ p.2) ∧ s.length < own.length ∧ isSubset own s = true)) := by
    intro hlen s
    unfold getCombinations
    rw [if_pos hlen, foldl_combinations_mem own bc [own] s]
    simp only [List.mem_singleton]
    constructor
    · rintro (h | ⟨p, hp, h2, h3, h4⟩)
      · exact Or.inl h
      · refine Or.inr ⟨⟨p, hp, h3⟩, ?_, h4⟩
        rw [hwf p hp s h3]
        exact h2
    · rintro (h | ⟨⟨p, hp, h3⟩, h2, h4⟩)
      · exact Or.inl h
      · refine Or.inr ⟨p, hp, ?_, h3, h4⟩
        rw [← hwf p hp s h3]
        exact h2
  refine ⟨hmain, ?_, ?_⟩
  · intro hlen
    unfold getCombinations
    rw [if_neg (by omega)]
  · intro s hs hne
    by_cases hlen : 1 < own.length
    · rcases (hmain hlen s).mp hs with h | ⟨_, h2, _⟩
      · exact absurd h hne
      · exact h2
    · unfold getCombinations at hs
      rw [if_neg hlen] at hs
      exact absurd (List.mem_singleton.mp hs) hne

/-- Witness for C7 (amended): a singleton owning set yields only itself. -/
theorem c7_combinations_amended_witness :
    getCombinations [(0, [[]])] [chunkW] = [[chunkW]] :=
  (c7_combinations_amended [(0, [[]])] [chunkW] (by decide)).2.1 (by decide)

/-- The prefix of the illegal-filename error message (lines 819-824). -/
def fatalFilenameMsgHead : String :=
  "SplitChunksPlugin: You are trying to set a filename for a chunk which is (also) loaded on demand. The runtime can only handle loading of chunks which match the chunkFilename schema. Using a custom filename would fail at runtime. (cache group: "

/-- The illegal-filename error message, naming the offending cache group. -/
def fatalFilenameMsg (key : String) : String :=
  fatalFilenameMsgHead ++ key ++ ")"

/-- JS truthiness of an optional filename string. -/
def filenameTruthy : Option String → Bool
  | some f => decide (f ≠ "")
  | none => false

/-- The filename application step of materialization (lines 817-827): a truthy
cache-group filename on a chunk that is not exclusively initial throws a hard
error; on an exclusively initial chunk the filename template is applied. -/
def applyFilename (cg : CacheGroup) (newChunk : Chunk) : Except String Chunk :=
  if filenameTruthy cg.filename then
    if !newChunk.isOnlyInitial then Except.error (fatalFilenameMsg cg.key)
    else Except.ok { newChunk with filenameTemplate := cg.filename }
  else Except.ok newChunk

/-- C8: an explicit cache-group filename on a chunk that is not exclusively
initial aborts the pass with a thrown error whose message names the offending
cache-group key; no error is raised when the chunk is exclusively initial. -/
theorem c8_filename_fatal (cg : CacheGroup) (c : Chunk) (f : String)
    (hf : cg.filename = some f) (hne : f ≠ "") :
    (c.isOnlyInitial = false →
      applyFilename cg c = .error (fatalFilenameMsg cg.key)
      ∧ ∃ pre post, fatalFilenameMsg cg.key = pre ++ cg.key ++ post)
    ∧ (c.isOnlyInitial = true →
        applyFilename cg c = .ok { c with filenameTemplate := cg.filename }) := by
  have htr : filenameTruthy cg.filename = true := by
    rw [hf]
    simpa [filenameTruthy] using hne
  constructor
  · intro hc
    refine ⟨?_, fatalFilenameMsgHead, ")", rfl⟩
    simp [applyFilename, htr, hc]
  · intro hc
    simp [applyFilename, htr, hc]

/-- A cache group with an explicit filename, for the C8 witness. -/
def cgFile : CacheGroup :=
  { cgEmptyMin with key := "k", filename := some "file.js" }

/-- Witness for C8 at a concrete on-demand chunk. -/
theorem c8_filename_fatal_witness :
    applyFilename cgFile chunkC1 = .error (fatalFilenameMsg cgFile.key) :=
  ((c8_filename_fatal cgFile chunkC1 "file.js" rfl (by decide)).1 rfl).1

/-- One call of `addModuleToChunksInfoMap`, as issued by the candidate builder
(lines 663-668) or the request-budget re-insertion (lines 777-784). -/
structure AddRequest where
  cacheGroup : CacheGroup
  selectedChunks : List Chunk
  selectedChunksKey : String
  module : Module

/-- A sequence of accumulation calls over the shared pass state. -/
def runAdds (reqs : List AddRequest) (st : SplitState) : SplitState :=
  reqs.foldl
    (fun s r =>
      addModuleToChunksInfoMap r.cacheGroup r.selectedChunks r.selectedChunksKey r.module s)
    st

/-- Invariant of the name-collision diagnostics: recorded names are distinct
and every recorded name has been validated. -/
def errorsInv (st : SplitState) : Prop :=
  (st.errors.map Prod.snd).Nodup ∧ ∀ e ∈ st.errors, (some e.2) ∈ st.alreadyValidatedNames

theorem validateName_errorsInv (cgKey : String) (name : Option String) (st : SplitState)
    (h : errorsInv st) : errorsInv (validateName cgKey name st) := by
  unfold validateName
  split
  case isTrue => exact h
  case isFalse hnot =>
    cases name with
    | none =>
      exact ⟨h.1, fun e he => List.mem_append.mpr (Or.inl (h.2 e he))⟩
    | some n =>
      dsimp only
      split
      next hcol =>
        constructor
        · rw [List.map_append, List.nodup_append]
          refine ⟨h.1, by simp, ?_⟩
          intro x hx hx2
          simp only [List.map_cons, List.map_nil, List.mem_singleton] at hx2
          subst hx2
          obtain ⟨e, he, hesnd⟩ := List.mem_map.mp hx
          have := h.2 e he
          rw [hesnd] at this
          exact hnot this
        · intro e he
          rcases List.mem_append.mp he with h1 | h1
          · exact List.mem_append.mpr (Or.inl (h.2 e h1))
          · simp only [List.mem_singleton] at h1
            subst h1
            exact List.mem_append.mpr (Or.inr (by simp))
      next hcol =>
        exact ⟨h.1, fun e he => List.mem_append.mpr (Or.inl (h.2 e he))⟩

theorem addModule_errorsInv (cg : CacheGroup) (sel : List Chunk) (sk : String)
    (mo : Module) (st : SplitState) (h : errorsInv st) :
    errorsInv (addModuleToChunksInfoMap cg sel sk mo st) := by
  unfold addModuleToChunksInfoMap
  split
  · exact h
  · exact validateName_errorsInv cg.key (cg.getName mo sel cg.key) st h

theorem runAdds_errorsInv (reqs : List AddRequest) :
    ∀ st : SplitState, errorsInv st → errorsInv (runAdds reqs st) := by
  induction reqs with
  | nil => intro st h; exact h
  | cons r rs ih =>
    intro st h
    exact ih _ (addModule_errorsInv r.cacheGroup r.selectedChunks r.selectedChunksKey
      r.module st h)

theorem filter_length_le_one_of_nodup_map {α β : Type} [DecidableEq β]
    (f : α → β) :
    ∀ (l : List α), (l.map f).Nodup →
      ∀ y : β, (l.filter (fun x => decide (f x = y))).length ≤ 1 := by
  intro l
  induction l with
  | nil => intro _ y; simp
  | cons a l ih =>
    intro hnd y
    simp only [List.map_cons, List.nodup_cons] at hnd
    by_cases ha : f a = y
    · have hempty : l.filter (fun x => decide (f x = y)) = [] := by
        rw [List.filter_eq_nil_iff]
        intro x hx
        simp only [decide_eq_true_eq]
        intro hfx
        have hxa : f x = f a := by rw [hfx, ha]
        exact hnd.1 (by rw [← hxa]; exact List.mem_map_of_mem f hx)
      rw [List.filter_cons_of_pos (by simp [ha]), hempty]
      simp
    · rw [List.filter_cons_of_neg (by simp [ha])]
      exact ih hnd.2 y

/-- The per-chunk max-size configuration recorded by materialization
(`maxSizeQueueMap` values, lines 851-875). -/
structure ChunkCfg where
  minSize : SizeMap
  maxSize : SizeMap
  keys : List String

/-- Size constraints of the fallback cache group (line 923). -/
structure FallbackCfg where
  minSize : SizeMap
  maxSize : SizeMap

/-- A recorded `MinMaxSizeWarning(keys, minSizeValue, maxSizeValue)`. -/
abbrev MinMaxWarning := Option (List String) × Int × Int

/-- The composite dedup key (lines 932-934):
`keys && keys.join()` rendered first (an absent config as `"undefined"`),
then the two values, space-separated. -/
def warnKeyOf (w : MinMaxWarning) : String :=
  (match w.1 with
   | some l => String.intercalate "," l
   | none => "undefined") ++ " " ++ toString w.2.1 ++ " " ++ toString w.2.2

/-- The deduplicated warning push (lines 935-940). -/
def dedupPush (acc : List String × List MinMaxWarning) (w : MinMaxWarning) :
    List String × List MinMaxWarning :=
  if warnKeyOf w ∈ acc.1 then acc else (acc.1 ++ [warnKeyOf w], acc.2 ++ [w])

/-- The warning-emission part of the maxSize enforcement loop for one chunk
(lines 920-942): with this chunk's recorded configuration (or the fallback),
every maxSize dimension whose minSize exceeds it pushes one deduplicated
warning. -/
def warnChunk (fallback : FallbackCfg) (acc : List String × List MinMaxWarning)
    (chunkCfg : Option ChunkCfg) : List String × List MinMaxWarning :=
  let minSize := match chunkCfg with | some c => c.minSize | none => fallback.minSize
  let maxSize := match chunkCfg with | some c => c.maxSize | none => fallback.maxSize
  let keys : Option (List String) := match chunkCfg with | some c => some c.keys | none => none
  if maxSize.isEmpty then acc
  else
    maxSize.foldl
      (fun a p =>
        match mapGet minSize p.1 with
        | some minV => if p.2 < minV then dedupPush a (keys, minV, p.2) else a
        | none => a)
      acc

/-- The warning-emission pass over the recorded configurations of all chunks. -/
def emitMinMaxWarnings (fallback : FallbackCfg) (cfgs : List (Option ChunkCfg)) :
    List String × List MinMaxWarning :=
  cfgs.foldl (warnChunk fallback) ([], [])

/-- Invariant of the min/max warnings: recorded composite keys are distinct and
every recorded key is in the seen set. -/
def warnInv (a : List String × List MinMaxWarning) : Prop :=
  (a.2.map warnKeyOf).Nodup ∧ ∀ w ∈ a.2, warnKeyOf w ∈ a.1

theorem dedupPush_warnInv (a : List String × List MinMaxWarning) (w : MinMaxWarning)
    (h : warnInv a) : warnInv (dedupPush a w) := by
  unfold dedupPush
  split
  case isTrue => exact h
  case isFalse hnot =>
    constructor
    · rw [List.map_append, List.nodup_append]
      refine ⟨h.1, by simp, ?_⟩
      intro x hx hx2
      simp only [List.map_cons, List.map_nil, List.mem_singleton] at hx2
      subst hx2
      obtain ⟨e, he, hk⟩ := List.mem_map.mp hx
      exact hnot (hk ▸ h.2 e he)
    · intro e he
      rcases List.mem_append.mp he with h1 | h1
      · exact List.mem_append.mpr (Or.inl (h.2 e h1))
      · simp only [List.mem_singleton] at h1
        subst h1
        exact List.mem_append.mpr (Or.inr (by simp))

theorem warnFold_warnInv (minSize : SizeMap) (keys : Option (List String)) :
    ∀ (l : List (String × Int)) (a : List String × List MinMaxWarning),
      warnInv a →
      warnInv (l.foldl
        (fun a p =>
          match mapGet minSize p.1 with
          | some minV => if p.2 < minV then dedupPush a (keys, minV, p.2) else a
          | none => a)
        a) := by
  intro l
  induction l with
  | nil => intro a h; exact h
  | cons p ps ih =>
    intro a h
    apply ih
    cases hm : mapGet minSize p.1 with
    | none => simpa [hm] using h
    | some minV =>
      simp only [hm]
      split
      · exact dedupPush_warnInv a _ h
      · exact h

theorem warnChunk_warnInv (fallback : FallbackCfg) (acc : List String × List MinMaxWarning)
    (cfg : Option ChunkCfg) (h : warnInv acc) : warnInv (warnChunk fallback acc cfg) := by
  cases cfg with
  | none =>
    unfold warnChunk
    dsimp only
    split
    · exact h
    · exact warnFold_warnInv fallback.minSize none fallback.maxSize acc h
  | some c =>
    unfold warnChunk
    dsimp only
    split
    · exact h
    · exact warnFold_warnInv c.minSize (some c.keys) c.maxSize acc h

theorem emit_warnInv (fallback : FallbackCfg) (cfgs : List (Option ChunkCfg)) :
    warnInv (emitMinMaxWarnings fallback cfgs) := by
  unfold emitMinMaxWarnings
  have : ∀ (l : List (Option ChunkCfg)) (a : List String × List MinMaxWarning),
      warnInv a → warnInv (l.foldl (warnChunk fallback) a) := by
    intro l
    induction l with
    | nil => intro a h; exact h
    | cons c cs ih =>
      intro a h
      exact ih _ (warnChunk_warnInv fallback a c h)
  exact this cfgs ([], []) ⟨by simp, by simp⟩

/-- C9: both soft conflicts are non-fatal and deduplicated: a name collision is
recorded (in the diagnostics of the compilation, without aborting) at most once per
distinct name, with the candidate map built from the computed name exactly as
if no collision existed; a minSize/maxSize inversion is recorded at most once
per distinct `(contributing keys, minSize value, maxSize value)` composite. -/
theorem c9_warning_dedup :
    (∀ (reqs : List AddRequest) (st0 : SplitState), st0.errors = [] →
      ∀ n : String,
        ((runAdds reqs st0).errors.filter (fun e => decide (e.2 = n))).length ≤ 1)
    ∧ (∀ (fallback : FallbackCfg) (cfgs : List (Option ChunkCfg)) (w : MinMaxWarning),
        ((emitMinMaxWarnings fallback cfgs).2.filter (fun x => decide (x = w))).length ≤ 1)
    ∧ (∀ (cg : CacheGroup) (sel : List Chunk) (sk : String) (mo : Module) (st : SplitState),
        (addModuleToChunksInfoMap cg sel sk mo st).chunksInfoMap
          = (addModuleToChunksInfoMap cg sel sk mo
              { st with namedChunks := [] }).chunksInfoMap) := by
  refine ⟨?_, ?_, ?_⟩
  · intro reqs st0 h0 n
    have hinv : errorsInv st0 := ⟨by rw [h0]; simp, by rw [h0]; simp⟩
    have hrun := runAdds_errorsInv reqs st0 hinv
    exact filter_length_le_one_of_nodup_map Prod.snd _ hrun.1 n
  · intro fallback cfgs w
    have hinv := emit_warnInv fallback cfgs
    have hcount := filter_length_le_one_of_nodup_map warnKeyOf _ hinv.1 (warnKeyOf w)
    calc ((emitMinMaxWarnings fallback cfgs).2.filter (fun x => decide (x = w))).length
        ≤ ((emitMinMaxWarnings fallback cfgs).2.filter
            (fun x => decide (warnKeyOf x = warnKeyOf w))).length := by
          apply List.Sublist.length_le
          apply List.monotone_filter_right
          intro x hx
          simp only [decide_eq_true_eq] at hx ⊢
          rw [hx]
      _ ≤ 1 := hcount
  · intro cg sel sk mo st
    by_cases hg : sel.length < cg.minChunks
    · simp [addModuleToChunksInfoMap, hg]
    · simp only [addModuleToChunksInfoMap, if_neg hg, validateName_chunksInfoMap]

/-- Witness for C9 on a concrete run starting from the empty diagnostics
state. -/
theorem c9_warning_dedup_witness :
    ((runAdds [⟨cgEmptyMin, [chunkW], "1", moduleW⟩] stEmpty).errors.filter
      (fun e => decide (e.2 = "main"))).length ≤ 1 :=
  c9_warning_dedup.1 [⟨cgEmptyMin, [chunkW], "1", moduleW⟩] stEmpty rfl "main"

end SplitChunks
